import Mathlib

/-!
Verification development for the file-crawler repository.

The program recursively walks a directory tree, tokenizes `.txt` files into
lowercase alphanumeric words, and keeps a sharded frequency count of every
word.  The definitions below are a shallow embedding of the C++ sources:

* `scanAux` / `scanWords` embed the read loop of `FileIndexer::ProcessFile`:
  bytes are classified exactly as the code classifies `(int)ch`
  (48..57 and 97..122 kept, 65..90 lowercased by adding 32, everything
  else a separator), tokens accumulate in a bounded buffer of capacity
  2048, and `assert(bufIndex < buffSize)` firing is modelled as `none`.
  File bytes are modelled as `Nat` values 0..255; the signed-char cast in
  the code only affects bytes ≥ 128, which fall outside every tested
  range either way.
* `WordAccumulator` with `addWord`, `clearResults`, `listTopWords`,
  `getUniqueWordCount` embeds `WordAccumulator.h`.  The hash
  `std::hash<std::string>` is platform-defined, so it is a parameter
  `h : Word → Nat`.  `std::sort` with comparator `a.second > b.second`
  leaves tie order unspecified; it is modelled by `mergeSort` with the
  corresponding non-strict comparison, which likewise yields a
  permutation sorted by descending count.  The slice
  `vector(allWords.begin(), allWords.begin() + count)` is in bounds only
  for `0 ≤ count ≤ allWords.size()`; the out-of-bounds slice is undefined
  behaviour and is modelled as `none`.
* `processFile` / `runFiles` embed the per-file open/read failure handling
  of `FileIndexer::ProcessFile`: an unopenable file reports a diagnostic
  (file name plus errno) and adds nothing; a mid-read failure reports a
  diagnostic after the successfully delivered bytes were scanned.
* `EntryNode`, `searchEntry` and `searchForFiles` embed
  `FileIndexer::SearchForFiles`: skip `.` and `..`, skip entries whose
  `lstat` fails, skip symlinks and special files, submit regular files
  whose name ends in the literal suffix `.txt`, and recurse into
  directories inline.

Definitions marked as spec-side (`specTokens`, `runsOf`, `hasTxtSuffix`)
restate the specification's wording (maximal alphanumeric runs, literal
suffix) and are proved to agree with the code-derived definitions.
-/

/-- Byte classification from `ProcessFile`: numeric range 48..57. -/
def isDigitByte (b : Nat) : Bool := 48 ≤ b && b ≤ 57

/-- Byte classification from `ProcessFile`: lowercase range 97..122. -/
def isLowerByte (b : Nat) : Bool := 97 ≤ b && b ≤ 122

/-- Byte classification from `ProcessFile`: uppercase range 65..90. -/
def isUpperByte (b : Nat) : Bool := 65 ≤ b && b ≤ 90

/-- Bytes the scanner appends unchanged (digits and lowercase letters). -/
def isKeepByte (b : Nat) : Bool := isDigitByte b || isLowerByte b

/-- Bytes treated as alphanumeric by the scanner (digits, lowercase, uppercase). -/
def isAlnumByte (b : Nat) : Bool := isKeepByte b || isUpperByte b

/-- Case folding as performed by the scanner: uppercase bytes get 32 added. -/
def foldByte (b : Nat) : Nat := if isUpperByte b then b + 32 else b

/-- Size of the fixed word buffer in `ProcessFile` (`size_t buffSize = 2048`). -/
def buffSize : Nat := 2048

/-- The read loop of `FileIndexer::ProcessFile`, over the bytes still to be
read and the current in-progress (already folded) token buffer.  Returns the
words passed to `AddWord`, in order, or `none` when
`assert(bufIndex < buffSize)` fires (fatal abort).  At end of input the
in-progress buffer is dropped without being emitted. -/
def scanAux : List Nat → List Nat → Option (List (List Nat))
  | [], _ => some []
  | b :: bs, buf =>
    if isKeepByte b then
      if buf.length + 1 < buffSize then scanAux bs (buf ++ [b]) else none
    else if isUpperByte b then
      if buf.length + 1 < buffSize then scanAux bs (buf ++ [b + 32]) else none
    else if 0 < buf.length then (scanAux bs []).map (fun ws => buf :: ws)
    else scanAux bs []

/-- Words emitted by scanning a whole file content, starting from an empty
buffer, or `none` when the overflow assertion fires. -/
def scanWords (content : List Nat) : Option (List (List Nat)) := scanAux content []

/-- Modelled from the spec: the tokens a file should produce, phrased as in
the specification — each maximal run of ASCII alphanumeric characters that is
followed by a separator is emitted with uppercase folded to lowercase, and a
trailing run that reaches end of file is not emitted. -/
def specTokens (l : List Nat) : List (List Nat) :=
  match h : l.dropWhile isAlnumByte with
  | [] => []
  | _ :: rest =>
    if (l.takeWhile isAlnumByte).isEmpty then specTokens rest
    else (l.takeWhile isAlnumByte).map foldByte :: specTokens rest
termination_by l.length
decreasing_by
  all_goals
    have hle : (l.dropWhile isAlnumByte).length ≤ l.length :=
      (List.dropWhile_sublist _).length_le
    rw [h] at hle
    simp at hle
    omega

/-- Modelled from the spec: all maximal runs of ASCII alphanumeric characters
in a byte stream, including a trailing run at end of file (which the scanner
buffers even though it never emits it). -/
def runsOf (l : List Nat) : List (List Nat) :=
  match h : l.dropWhile isAlnumByte with
  | [] => if l.isEmpty then [] else [l]
  | _ :: rest =>
    if (l.takeWhile isAlnumByte).isEmpty then runsOf rest
    else l.takeWhile isAlnumByte :: runsOf rest
termination_by l.length
decreasing_by
  all_goals
    have hle : (l.dropWhile isAlnumByte).length ≤ l.length :=
      (List.dropWhile_sublist _).length_le
    rw [h] at hle
    simp at hle
    omega

/-- Words are byte strings, as in the C++ `std::string`. -/
abbrev Word := List Nat

/-- Embedding of `WordCountType = std::pair<std::string, int>`.  Counts start
at 1 and are only ever incremented, so `Nat` models the `int`. -/
abbrev WordCountType := Word × Nat

/-- Number of shards, `WordAccumulator::BIN_COUNT`. -/
def BIN_COUNT : Nat := 32767

/-- Embedding of the `WordAccumulator` state: the vector of bins, each a
vector of (word, count) pairs.  The mutexes only serialize access and have no
sequential content. -/
structure WordAccumulator where
  bins : List (List WordCountType)

/-- The freshly constructed accumulator: `BIN_COUNT` empty bins. -/
def WordAccumulator.empty : WordAccumulator := ⟨List.replicate BIN_COUNT []⟩

/-- The in-bin linear search of `AddWord`: increment the entry for `w` in
place if present, otherwise append `(w, 1)` at the end. -/
def addToBin (w : Word) : List WordCountType → List WordCountType
  | [] => [(w, 1)]
  | p :: rest => if p.1 = w then (p.1, p.2 + 1) :: rest else p :: addToBin w rest

/-- Embedding of `WordAccumulator::AddWord`: the bin index is
`hash(word) % bins.size()` and only that bin is rewritten. -/
def WordAccumulator.addWord (h : Word → Nat) (a : WordAccumulator) (w : Word) :
    WordAccumulator :=
  let binIndex := h w % a.bins.length
  ⟨a.bins.set binIndex (addToBin w (a.bins.getD binIndex []))⟩

/-- Embedding of `WordAccumulator::ClearResults`: every bin is cleared. -/
def WordAccumulator.clearResults (a : WordAccumulator) : WordAccumulator :=
  ⟨a.bins.map (fun _ => ([] : List WordCountType))⟩

/-- The collection loop of `ListTopWords`: concatenate the contents of all
non-empty bins in order. -/
def collectAllWords (bins : List (List WordCountType)) : List WordCountType :=
  bins.foldl (fun acc bin => if bin.length ≤ 0 then acc else acc ++ bin) []

/-- The `std::sort` call of `ListTopWords` with comparator
`a.second > b.second`: some permutation ordered by non-increasing count
(tie order is unspecified in the source; `mergeSort` realizes one). -/
def sortByOccurrence (l : List WordCountType) : List WordCountType :=
  l.mergeSort (fun p q => decide (q.2 ≤ p.2))

/-- Embedding of `WordAccumulator::ListTopWords`.  An empty collection is
returned as-is before sorting.  Otherwise the code builds
`vector(allWords.begin(), allWords.begin() + count)`, which is well defined
only for `0 ≤ count ≤ allWords.size()`; the out-of-range slice is undefined
behaviour, modelled as `none`. -/
def WordAccumulator.listTopWords (a : WordAccumulator) (count : Int) :
    Option (List WordCountType) :=
  let allWords := collectAllWords a.bins
  if allWords.length ≤ 0 then some allWords
  else if 0 ≤ count ∧ count ≤ (allWords.length : Int) then
    some ((sortByOccurrence allWords).take count.toNat)
  else none

/-- Embedding of `WordAccumulator::GetUniqueWordCount`: sum of bin sizes. -/
def WordAccumulator.getUniqueWordCount (a : WordAccumulator) : Nat :=
  a.bins.foldl (fun t bin => t + bin.length) 0

/-- Observer: the count a bin records for word `w` (0 if absent). -/
def binCountOf (w : Word) (bin : List WordCountType) : Nat :=
  ((bin.filter (fun p => decide (p.1 = w))).map (fun p => p.2)).sum

/-- Observer: the total count the accumulator records for word `w`, summed
over all bins. -/
def WordAccumulator.countOf (a : WordAccumulator) (w : Word) : Nat :=
  (a.bins.map (binCountOf w)).sum

/-- Bytes of a string literal, for concrete scanner and accumulator inputs. -/
def strB (s : String) : List Nat := s.toList.map (fun c => c.toNat)

/-- A hash function usable in concrete examples (the real
`std::hash<std::string>` is platform-defined). -/
def hZero : Word → Nat := fun _ => 0

/-- Outcome of the OS-level interaction of one `ProcessFile` call: whether the
`ifstream` opened successfully (`errno` captured otherwise), the bytes the
stream delivered before it stopped, and whether it stopped because of a read
error rather than end-of-file (`errno` captured then too). -/
structure FileInput where
  openOk : Bool
  openErrno : Nat
  bytes : List Nat
  readError : Bool
  readErrno : Nat

/-- One diagnostic line printed by `ProcessFile`, carrying the file name and
the system error number it reports. -/
structure Diag where
  filename : String
  errnoVal : Nat
deriving DecidableEq

/-- Embedding of `FileIndexer::ProcessFile` against the shared accumulator:
a failed open reports a diagnostic and adds nothing; otherwise the delivered
bytes are scanned (with the words added in order) and a read failure that is
not end-of-file reports a diagnostic afterwards.  `none` models the fatal
buffer-overflow assertion. -/
def processFile (h : Word → Nat) (filename : String) (inp : FileInput)
    (a : WordAccumulator) : Option (WordAccumulator × List Diag) :=
  if !inp.openOk then some (a, [⟨filename, inp.openErrno⟩])
  else
    match scanWords inp.bytes with
    | none => none
    | some ws =>
      some (ws.foldl (fun acc w => acc.addWord h w) a,
        if inp.readError then [⟨filename, inp.readErrno⟩] else [])

/-- Sequentialized run of the dispatched per-file tasks: the final counts are
what every interleaving of the shard-locked adds produces. -/
def runFiles (h : Word → Nat) : List (String × FileInput) → WordAccumulator →
    Option (WordAccumulator × List Diag)
  | [], a => some (a, [])
  | (fn, inp) :: rest, a =>
    match processFile h fn inp a with
    | none => none
    | some (a', ds) =>
      match runFiles h rest a' with
      | none => none
      | some (a'', ds') => some (a'', ds ++ ds')

/-- One directory entry as `SearchForFiles` perceives it after `lstat`:
its name, and either a failed `lstat` or the file type the mode bits report.
A directory entry carries the entries that reading it yields. -/
inductive EntryNode where
  | regularFile (name : List Char)
  | symlink (name : List Char)
  | directory (name : List Char) (entries : List EntryNode)
  | otherType (name : List Char)
  | statFail (name : List Char)

/-- Name of the `.` entry. -/
def dotName : List Char := ['.']

/-- Name of the `..` entry. -/
def dotDotName : List Char := ['.', '.']

/-- The suffix test of `SearchForFiles`:
`len >= 4 && strcmp(&d_name[len-4], ".txt") == 0`. -/
def endsTxt (name : List Char) : Bool :=
  4 ≤ name.length && decide (name.drop (name.length - 4) = ".txt".toList)

mutual

/-- Embedding of the `readdir` loop of `FileIndexer::SearchForFiles`: the
paths posted to the worker pool, in traversal order. -/
def searchForFiles (basePath : List Char) : List EntryNode → List (List Char)
  | [] => []
  | e :: rest => searchEntry basePath e ++ searchForFiles basePath rest

/-- Contribution of a single directory entry to the posted paths: `.` and
`..` are skipped, entries whose `lstat` failed are skipped, symlinks and
special files are skipped, a regular file is posted exactly when its name
ends in `.txt`, and a directory is walked inline on the same path. -/
def searchEntry (basePath : List Char) : EntryNode → List (List Char)
  | .regularFile name =>
    if name = dotName ∨ name = dotDotName then []
    else if endsTxt name then [basePath ++ '/' :: name] else []
  | .symlink _ => []
  | .otherType _ => []
  | .statFail _ => []
  | .directory name entries =>
    if name = dotName ∨ name = dotDotName then []
    else searchForFiles (basePath ++ '/' :: name) entries

end

/-- Accumulator states reachable by any sequence of `AddWord` and
`ClearResults` calls from a freshly constructed accumulator. -/
inductive Reachable (h : Word → Nat) : WordAccumulator → Prop where
  | base : Reachable h WordAccumulator.empty
  | add (a : WordAccumulator) (w : Word) : Reachable h a → Reachable h (a.addWord h w)
  | clear (a : WordAccumulator) : Reachable h a → Reachable h a.clearResults

/-- Modelled from the spec: a file name ends in the literal, case-sensitive
suffix `.txt` exactly when it is some stem followed by those four
characters. -/
def hasTxtSuffix (name : List Char) : Prop :=
  ∃ stem, name = stem ++ ".txt".toList

/-! ### Byte classification facts -/

lemma isUpperByte_false_of_keep {b : Nat} (h : isKeepByte b = true) :
    isUpperByte b = false := by
  rw [Bool.eq_false_iff]
  intro hu
  simp only [isKeepByte, isDigitByte, isLowerByte, isUpperByte, Bool.or_eq_true,
    Bool.and_eq_true, decide_eq_true_eq] at h hu
  omega

lemma foldByte_of_keep {b : Nat} (h : isKeepByte b = true) : foldByte b = b := by
  simp [foldByte, isUpperByte_false_of_keep h]

lemma foldByte_of_upper {b : Nat} (h : isUpperByte b = true) : foldByte b = b + 32 := by
  simp [foldByte, h]

lemma isAlnumByte_of_keep {b : Nat} (h : isKeepByte b = true) : isAlnumByte b = true := by
  simp [isAlnumByte, h]

lemma isAlnumByte_of_upper {b : Nat} (h : isUpperByte b = true) : isAlnumByte b = true := by
  simp [isAlnumByte, h]

lemma isAlnumByte_false_of_sep {b : Nat} (hk : isKeepByte b = false)
    (hu : isUpperByte b = false) : isAlnumByte b = false := by
  simp [isAlnumByte, hk, hu]

lemma isKeepByte_add32_of_upper {b : Nat} (h : isUpperByte b = true) :
    isKeepByte (b + 32) = true := by
  simp only [isUpperByte, isKeepByte, isDigitByte, isLowerByte, Bool.and_eq_true,
    Bool.or_eq_true, decide_eq_true_eq] at h ⊢
  omega

/-! ### Unfolding equations for the spec-side token and run splitters -/

lemma specTokens_eq_of_dropWhile_nil {l : List Nat}
    (h : l.dropWhile isAlnumByte = []) : specTokens l = [] := by
  rw [specTokens]
  split
  · rfl
  · next heq => rw [h] at heq; cases heq

lemma specTokens_eq_of_dropWhile_cons {l rest : List Nat} {b : Nat}
    (h : l.dropWhile isAlnumByte = b :: rest) :
    specTokens l = if (l.takeWhile isAlnumByte).isEmpty then specTokens rest
      else (l.takeWhile isAlnumByte).map foldByte :: specTokens rest := by
  rw [specTokens]
  split
  · next heq => rw [h] at heq; cases heq
  · next heq =>
    rw [h] at heq
    cases heq
    rfl

lemma runsOf_eq_of_dropWhile_nil {l : List Nat}
    (h : l.dropWhile isAlnumByte = []) : runsOf l = if l.isEmpty then [] else [l] := by
  rw [runsOf]
  split
  · rfl
  · next heq => rw [h] at heq; cases heq

lemma runsOf_eq_of_dropWhile_cons {l rest : List Nat} {b : Nat}
    (h : l.dropWhile isAlnumByte = b :: rest) :
    runsOf l = if (l.takeWhile isAlnumByte).isEmpty then runsOf rest
      else l.takeWhile isAlnumByte :: runsOf rest := by
  rw [runsOf]
  split
  · next heq => rw [h] at heq; cases heq
  · next heq =>
    rw [h] at heq
    cases heq
    rfl

/-! ### takeWhile and dropWhile over a run followed by a separator -/

lemma takeWhile_append_sep {run t : List Nat} {b : Nat}
    (hrun : ∀ x ∈ run, isAlnumByte x = true) (hb : isAlnumByte b = false) :
    (run ++ b :: t).takeWhile isAlnumByte = run := by
  rw [List.takeWhile_append, List.takeWhile_eq_self_iff.mpr hrun]
  simp [List.takeWhile_cons, hb]

lemma dropWhile_append_sep {run t : List Nat} {b : Nat}
    (hrun : ∀ x ∈ run, isAlnumByte x = true) (hb : isAlnumByte b = false) :
    (run ++ b :: t).dropWhile isAlnumByte = b :: t := by
  rw [List.dropWhile_append, List.dropWhile_eq_nil_iff.mpr hrun]
  simp [List.dropWhile_cons, hb]

lemma specTokens_all_alnum {l : List Nat} (h : ∀ x ∈ l, isAlnumByte x = true) :
    specTokens l = [] :=
  specTokens_eq_of_dropWhile_nil (List.dropWhile_eq_nil_iff.mpr h)

lemma specTokens_run_sep {run t : List Nat} {b : Nat}
    (hrun : ∀ x ∈ run, isAlnumByte x = true) (hb : isAlnumByte b = false) :
    specTokens (run ++ b :: t) =
      if run.isEmpty then specTokens t else run.map foldByte :: specTokens t := by
  rw [specTokens_eq_of_dropWhile_cons (dropWhile_append_sep hrun hb),
    takeWhile_append_sep hrun hb]

lemma runsOf_all_alnum {l : List Nat} (h : ∀ x ∈ l, isAlnumByte x = true) :
    runsOf l = if l.isEmpty then [] else [l] :=
  runsOf_eq_of_dropWhile_nil (List.dropWhile_eq_nil_iff.mpr h)

lemma runsOf_run_sep {run t : List Nat} {b : Nat}
    (hrun : ∀ x ∈ run, isAlnumByte x = true) (hb : isAlnumByte b = false) :
    runsOf (run ++ b :: t) =
      if run.isEmpty then runsOf t else run :: runsOf t := by
  rw [runsOf_eq_of_dropWhile_cons (dropWhile_append_sep hrun hb),
    takeWhile_append_sep hrun hb]

lemma takeWhile_mem_runsOf {l : List Nat}
    (h : l.takeWhile isAlnumByte ≠ []) : l.takeWhile isAlnumByte ∈ runsOf l := by
  cases hdw : l.dropWhile isAlnumByte with
  | nil =>
    have hl : l.takeWhile isAlnumByte = l := by
      have := List.takeWhile_append_dropWhile isAlnumByte l
      rw [hdw] at this
      simpa using this
    rw [runsOf_eq_of_dropWhile_nil hdw, hl]
    have hlne : l ≠ [] := by
      intro e
      subst e
      exact h rfl
    have hne : l.isEmpty = false := by
      rw [Bool.eq_false_iff]
      intro he
      exact hlne (List.isEmpty_iff.mp he)
    simp [hne]
  | cons d rest =>
    rw [runsOf_eq_of_dropWhile_cons hdw]
    simp only [List.isEmpty_iff]
    rw [if_neg h]
    exact List.mem_cons_self _ _

/-! ### Run lengths and the overflow assertion -/

lemma takeWhile_run_extend {braw t : List Nat} {b : Nat}
    (hall : ∀ x ∈ braw ++ [b], isAlnumByte x = true) :
    ((braw ++ [b]) ++ t).takeWhile isAlnumByte
      = (braw ++ [b]) ++ t.takeWhile isAlnumByte := by
  rw [List.takeWhile_append, List.takeWhile_eq_self_iff.mpr hall]
  simp

lemma first_run_length_bound {braw t : List Nat} {b : Nat}
    (hb : ∀ x ∈ braw, isAlnumByte x = true) (hba : isAlnumByte b = true)
    (hruns : ∀ r ∈ runsOf (braw ++ b :: t), r.length ≤ 2047) :
    braw.length + 1 ≤ 2047 := by
  have hall : ∀ x ∈ braw ++ [b], isAlnumByte x = true := by
    intro x hx
    rcases List.mem_append.mp hx with h1 | h2
    · exact hb x h1
    · rw [List.mem_singleton.mp h2]
      exact hba
  have htw := @takeWhile_run_extend braw t b hall
  have hne : ((braw ++ [b]) ++ t).takeWhile isAlnumByte ≠ [] := by
    rw [htw]
    simp
  have hmem := takeWhile_mem_runsOf hne
  have heq : (braw ++ [b]) ++ t = braw ++ b :: t := by
    rw [List.append_assoc, List.singleton_append]
  rw [heq] at hmem htw
  have hlen := hruns _ hmem
  rw [htw] at hlen
  simp only [List.length_append, List.length_cons] at hlen ⊢
  omega

lemma scanAux_isSome_of_short_runs : ∀ (bs braw : List Nat),
    (∀ x ∈ braw, isAlnumByte x = true) →
    (∀ r ∈ runsOf (braw ++ bs), r.length ≤ 2047) →
    (scanAux bs (braw.map foldByte)).isSome = true := by
  intro bs
  induction bs with
  | nil =>
    intro braw _ _
    simp [scanAux]
  | cons b bs ih =>
    intro braw hb hruns
    rw [scanAux]
    by_cases hk : isKeepByte b = true
    · rw [if_pos hk]
      have hbound := first_run_length_bound hb (isAlnumByte_of_keep hk) hruns
      have hg : (braw.map foldByte).length + 1 < buffSize := by
        simp only [List.length_map, buffSize]
        omega
      rw [if_pos hg]
      have hbuf : braw.map foldByte ++ [b] = (braw ++ [b]).map foldByte := by
        rw [List.map_append]
        simp [foldByte_of_keep hk]
      rw [hbuf]
      refine ih (braw ++ [b]) ?_ ?_
      · intro x hx
        rcases List.mem_append.mp hx with h1 | h2
        · exact hb x h1
        · rw [List.mem_singleton.mp h2]
          exact isAlnumByte_of_keep hk
      · intro r hr
        apply hruns
        rwa [List.append_assoc, List.singleton_append] at hr
    · rw [if_neg hk]
      by_cases hu : isUpperByte b = true
      · rw [if_pos hu]
        have hbound := first_run_length_bound hb (isAlnumByte_of_upper hu) hruns
        have hg : (braw.map foldByte).length + 1 < buffSize := by
          simp only [List.length_map, buffSize]
          omega
        rw [if_pos hg]
        have hbuf : braw.map foldByte ++ [b + 32] = (braw ++ [b]).map foldByte := by
          rw [List.map_append]
          simp [foldByte_of_upper hu]
        rw [hbuf]
        refine ih (braw ++ [b]) ?_ ?_
        · intro x hx
          rcases List.mem_append.mp hx with h1 | h2
          · exact hb x h1
          · rw [List.mem_singleton.mp h2]
            exact isAlnumByte_of_upper hu
        · intro r hr
          apply hruns
          rwa [List.append_assoc, List.singleton_append] at hr
      · rw [if_neg hu]
        have hsep : isAlnumByte b = false :=
          isAlnumByte_false_of_sep (Bool.eq_false_iff.mpr hk) (Bool.eq_false_iff.mpr hu)
        by_cases hne : braw = []
        · subst hne
          rw [if_neg (by simp)]
          refine ih [] (by simp) ?_
          intro r hr
          apply hruns
          have hrw := @runsOf_run_sep [] bs b (by simp) hsep
          simp only [List.nil_append, List.isEmpty_nil, if_true] at hrw
          simp only [List.nil_append] at hr ⊢
          rw [hrw]
          exact hr
        · have hpos : 0 < (braw.map foldByte).length := by
            simp only [List.length_map]
            exact List.length_pos.mpr hne
          rw [if_pos hpos]
          have hbe : braw.isEmpty = false := by
            rw [Bool.eq_false_iff]
            intro he
            exact hne (List.isEmpty_iff.mp he)
          have hv : (scanAux bs ([].map foldByte)).isSome = true := by
            refine ih [] (by simp) ?_
            intro r hr
            apply hruns
            rw [runsOf_run_sep hb hsep, hbe]
            simp only [Bool.false_eq_true, if_false]
            simp only [List.nil_append] at hr
            exact List.mem_cons_of_mem _ hr
          obtain ⟨v, hv'⟩ := Option.isSome_iff_exists.mp hv
          simp only [List.map_nil] at hv'
          rw [hv']
          rfl

lemma scanAux_none_of_long_run : ∀ (bs braw : List Nat),
    (∀ x ∈ braw, isAlnumByte x = true) → braw.length ≤ 2047 →
    (∃ r ∈ runsOf (braw ++ bs), 2047 < r.length) →
    scanAux bs (braw.map foldByte) = none := by
  intro bs
  induction bs with
  | nil =>
    intro braw hb hlen hex
    obtain ⟨r, hr, hrlen⟩ := hex
    rw [List.append_nil, runsOf_all_alnum hb] at hr
    by_cases he : braw.isEmpty
    · rw [if_pos he] at hr
      cases hr
    · rw [if_neg he] at hr
      rw [List.mem_singleton.mp hr] at hrlen
      omega
  | cons b bs ih =>
    intro braw hb hlen hex
    rw [scanAux]
    by_cases hk : isKeepByte b = true
    · rw [if_pos hk]
      by_cases hg : (braw.map foldByte).length + 1 < buffSize
      · rw [if_pos hg]
        have hbuf : braw.map foldByte ++ [b] = (braw ++ [b]).map foldByte := by
          rw [List.map_append]
          simp [foldByte_of_keep hk]
        rw [hbuf]
        refine ih (braw ++ [b]) ?_ ?_ ?_
        · intro x hx
          rcases List.mem_append.mp hx with h1 | h2
          · exact hb x h1
          · rw [List.mem_singleton.mp h2]
            exact isAlnumByte_of_keep hk
        · simp only [List.length_map, buffSize] at hg
          simp only [List.length_append, List.length_singleton]
          omega
        · obtain ⟨r, hr, hrlen⟩ := hex
          refine ⟨r, ?_, hrlen⟩
          rwa [List.append_assoc, List.singleton_append]
      · rw [if_neg hg]
    · rw [if_neg hk]
      by_cases hu : isUpperByte b = true
      · rw [if_pos hu]
        by_cases hg : (braw.map foldByte).length + 1 < buffSize
        · rw [if_pos hg]
          have hbuf : braw.map foldByte ++ [b + 32] = (braw ++ [b]).map foldByte := by
            rw [List.map_append]
            simp [foldByte_of_upper hu]
          rw [hbuf]
          refine ih (braw ++ [b]) ?_ ?_ ?_
          · intro x hx
            rcases List.mem_append.mp hx with h1 | h2
            · exact hb x h1
            · rw [List.mem_singleton.mp h2]
              exact isAlnumByte_of_upper hu
          · simp only [List.length_map, buffSize] at hg
            simp only [List.length_append, List.length_singleton]
            omega
          · obtain ⟨r, hr, hrlen⟩ := hex
            refine ⟨r, ?_, hrlen⟩
            rwa [List.append_assoc, List.singleton_append]
        · rw [if_neg hg]
      · rw [if_neg hu]
        have hsep : isAlnumByte b = false :=
          isAlnumByte_false_of_sep (Bool.eq_false_iff.mpr hk) (Bool.eq_false_iff.mpr hu)
        have hextail : ∃ r ∈ runsOf ([] ++ bs), 2047 < r.length := by
          obtain ⟨r, hr, hrlen⟩ := hex
          rw [runsOf_run_sep hb hsep] at hr
          by_cases he : braw.isEmpty
          · rw [if_pos he] at hr
            exact ⟨r, by simpa using hr, hrlen⟩
          · rw [if_neg he] at hr
            rcases List.mem_cons.mp hr with h1 | h2
            · rw [h1] at hrlen
              omega
            · exact ⟨r, by simpa using h2, hrlen⟩
        have htail : scanAux bs ([].map foldByte) = none :=
          ih [] (by simp) (by simp) hextail
        simp only [List.map_nil] at htail
        by_cases hpos : 0 < (braw.map foldByte).length
        · rw [if_pos hpos, htail]
          rfl
        · rw [if_neg hpos]
          exact htail

/-! ### The scanner agrees with the spec-side token splitter -/

lemma scanAux_spec : ∀ (bs braw : List Nat) (ws : List (List Nat)),
    (∀ x ∈ braw, isAlnumByte x = true) →
    scanAux bs (braw.map foldByte) = some ws →
    ws = specTokens (braw ++ bs) := by
  intro bs
  induction bs with
  | nil =>
    intro braw ws hb hscan
    simp only [scanAux, Option.some.injEq] at hscan
    subst hscan
    rw [List.append_nil, specTokens_all_alnum hb]
  | cons b bs ih =>
    intro braw ws hb hscan
    rw [scanAux] at hscan
    by_cases hk : isKeepByte b = true
    · rw [if_pos hk] at hscan
      by_cases hg : (braw.map foldByte).length + 1 < buffSize
      · rw [if_pos hg] at hscan
        have hb' : ∀ x ∈ braw ++ [b], isAlnumByte x = true := by
          intro x hx
          rcases List.mem_append.mp hx with h1 | h2
          · exact hb x h1
          · rw [List.mem_singleton.mp h2]
            exact isAlnumByte_of_keep hk
        have hbuf : braw.map foldByte ++ [b] = (braw ++ [b]).map foldByte := by
          rw [List.map_append]
          simp [foldByte_of_keep hk]
        rw [hbuf] at hscan
        have hres := ih (braw ++ [b]) ws hb' hscan
        rwa [List.append_assoc, List.singleton_append] at hres
      · rw [if_neg hg] at hscan
        cases hscan
    · rw [if_neg hk] at hscan
      by_cases hu : isUpperByte b = true
      · rw [if_pos hu] at hscan
        by_cases hg : (braw.map foldByte).length + 1 < buffSize
        · rw [if_pos hg] at hscan
          have hb' : ∀ x ∈ braw ++ [b], isAlnumByte x = true := by
            intro x hx
            rcases List.mem_append.mp hx with h1 | h2
            · exact hb x h1
            · rw [List.mem_singleton.mp h2]
              exact isAlnumByte_of_upper hu
          have hbuf : braw.map foldByte ++ [b + 32] = (braw ++ [b]).map foldByte := by
            rw [List.map_append]
            simp [foldByte_of_upper hu]
          rw [hbuf] at hscan
          have hres := ih (braw ++ [b]) ws hb' hscan
          rwa [List.append_assoc, List.singleton_append] at hres
        · rw [if_neg hg] at hscan
          cases hscan
      · have hsep : isAlnumByte b = false :=
          isAlnumByte_false_of_sep (Bool.eq_false_iff.mpr hk) (Bool.eq_false_iff.mpr hu)
        rw [if_neg hu] at hscan
        by_cases hne : braw = []
        · subst hne
          rw [if_neg (by simp)] at hscan
          have hres := ih [] ws (by simp) hscan
          have hstep := @specTokens_run_sep [] bs b (by simp) hsep
          simp only [List.nil_append, List.isEmpty_nil, if_true] at hstep
          rw [List.nil_append] at hres ⊢
          rw [hstep]
          simpa using hres
        · have hpos : 0 < (braw.map foldByte).length := by
            simp only [List.length_map]
            exact List.length_pos.mpr hne
          rw [if_pos hpos] at hscan
          obtain ⟨ws', hws', heq⟩ := Option.map_eq_some'.mp hscan
          subst heq
          have hres := ih [] ws' (by simp) hws'
          rw [specTokens_run_sep hb hsep]
          have hbe : braw.isEmpty = false := by
            rw [Bool.eq_false_iff]
            intro he
            exact hne (List.isEmpty_iff.mp he)
          have hws2 : ws' = specTokens bs := by simpa using hres
          rw [hbe, hws2]
          simp

lemma scanAux_words_valid : ∀ (bs buf : List Nat) (ws : List (List Nat)),
    (∀ x ∈ buf, isKeepByte x = true) →
    scanAux bs buf = some ws →
    ∀ w ∈ ws, w ≠ [] ∧ ∀ x ∈ w, isKeepByte x = true := by
  intro bs
  induction bs with
  | nil =>
    intro buf ws hbuf hscan
    simp only [scanAux, Option.some.injEq] at hscan
    subst hscan
    intro w hw
    cases hw
  | cons b bs ih =>
    intro buf ws hbuf hscan
    rw [scanAux] at hscan
    by_cases hk : isKeepByte b = true
    · rw [if_pos hk] at hscan
      by_cases hg : buf.length + 1 < buffSize
      · rw [if_pos hg] at hscan
        refine ih (buf ++ [b]) ws ?_ hscan
        intro x hx
        rcases List.mem_append.mp hx with h1 | h2
        · exact hbuf x h1
        · rw [List.mem_singleton.mp h2]
          exact hk
      · rw [if_neg hg] at hscan
        cases hscan
    · rw [if_neg hk] at hscan
      by_cases hu : isUpperByte b = true
      · rw [if_pos hu] at hscan
        by_cases hg : buf.length + 1 < buffSize
        · rw [if_pos hg] at hscan
          refine ih (buf ++ [b + 32]) ws ?_ hscan
          intro x hx
          rcases List.mem_append.mp hx with h1 | h2
          · exact hbuf x h1
          · rw [List.mem_singleton.mp h2]
            exact isKeepByte_add32_of_upper hu
        · rw [if_neg hg] at hscan
          cases hscan
      · rw [if_neg hu] at hscan
        by_cases hpos : 0 < buf.length
        · rw [if_pos hpos] at hscan
          obtain ⟨ws', hws', heq⟩ := Option.map_eq_some'.mp hscan
          subst heq
          intro w hw
          rcases List.mem_cons.mp hw with h1 | h2
          · subst h1
            exact ⟨List.length_pos.mp hpos, hbuf⟩
          · exact ih [] ws' (by simp) hws' w h2
        · rw [if_neg hpos] at hscan
          exact ih [] ws (by simp) hscan

lemma scanAux_append_isSome : ∀ (xs ys buf : List Nat),
    (scanAux (xs ++ ys) buf).isSome = true → (scanAux xs buf).isSome = true := by
  intro xs
  induction xs with
  | nil =>
    intro ys buf _
    simp [scanAux]
  | cons b bs ih =>
    intro ys buf hsome
    rw [List.cons_append, scanAux] at hsome
    rw [scanAux]
    by_cases hk : isKeepByte b = true
    · rw [if_pos hk] at hsome ⊢
      by_cases hg : buf.length + 1 < buffSize
      · rw [if_pos hg] at hsome ⊢
        exact ih ys _ hsome
      · rw [if_neg hg] at hsome
        simp at hsome
    · rw [if_neg hk] at hsome ⊢
      by_cases hu : isUpperByte b = true
      · rw [if_pos hu] at hsome ⊢
        by_cases hg : buf.length + 1 < buffSize
        · rw [if_pos hg] at hsome ⊢
          exact ih ys _ hsome
        · rw [if_neg hg] at hsome
          simp at hsome
      · rw [if_neg hu] at hsome ⊢
        by_cases hpos : 0 < buf.length
        · rw [if_pos hpos] at hsome ⊢
          cases ho : scanAux (bs ++ ys) [] with
          | none =>
            rw [ho] at hsome
            simp at hsome
          | some v =>
            have hv : (scanAux bs []).isSome = true := ih ys [] (by rw [ho]; rfl)
            obtain ⟨w, hw⟩ := Option.isSome_iff_exists.mp hv
            rw [hw]
            rfl
        · rw [if_neg hpos] at hsome ⊢
          exact ih ys [] hsome

lemma specTokens_append_run_bound : ∀ (n : Nat) (l : List Nat), l.length ≤ n →
    ∀ rs, (∀ x ∈ rs, isAlnumByte x = true) → specTokens (l ++ rs) = specTokens l := by
  intro n
  induction n with
  | zero =>
    intro l hl rs hrs
    have hnil : l = [] := List.length_eq_zero.mp (Nat.le_zero.mp hl)
    subst hnil
    simp only [List.nil_append]
    rw [specTokens_all_alnum hrs, @specTokens_eq_of_dropWhile_nil [] rfl]
  | succ n ih =>
    intro l hl rs hrs
    cases hdw : l.dropWhile isAlnumByte with
    | nil =>
      have hall : ∀ x ∈ l, isAlnumByte x = true := List.dropWhile_eq_nil_iff.mp hdw
      rw [specTokens_all_alnum hall, specTokens_all_alnum ?hboth]
      case hboth =>
        intro x hx
        rcases List.mem_append.mp hx with h1 | h2
        · exact hall x h1
        · exact hrs x h2
    | cons d rest =>
      have hdw2 : (l ++ rs).dropWhile isAlnumByte = d :: (rest ++ rs) := by
        rw [List.dropWhile_append, hdw]
        simp
      have htw : (l ++ rs).takeWhile isAlnumByte = l.takeWhile isAlnumByte := by
        rw [List.takeWhile_append]
        have hne : (l.takeWhile isAlnumByte).length ≠ l.length := by
          intro he
          have h4 : (l.takeWhile isAlnumByte).length + (l.dropWhile isAlnumByte).length
              = l.length := by
            rw [← List.length_append, List.takeWhile_append_dropWhile]
          rw [hdw] at h4
          simp only [List.length_cons] at h4
          omega
        rw [if_neg hne]
      have hrest : rest.length ≤ n := by
        have hle : (l.dropWhile isAlnumByte).length ≤ l.length :=
          (List.dropWhile_sublist _).length_le
        rw [hdw] at hle
        simp only [List.length_cons] at hle
        omega
      rw [specTokens_eq_of_dropWhile_cons hdw2, specTokens_eq_of_dropWhile_cons hdw,
        htw, ih rest hrest rs hrs]

lemma specTokens_append_run {l rs : List Nat}
    (hrs : ∀ x ∈ rs, isAlnumByte x = true) :
    specTokens (l ++ rs) = specTokens l :=
  specTokens_append_run_bound l.length l le_rfl rs hrs

/-! ### Accumulator facts -/

lemma collect_foldl_all_nil :
    ∀ (bins : List (List WordCountType)) (acc : List WordCountType),
    (∀ b ∈ bins, b = []) →
    bins.foldl (fun acc bin => if bin.length ≤ 0 then acc else acc ++ bin) acc = acc := by
  intro bins
  induction bins with
  | nil =>
    intro acc _
    rfl
  | cons b rest ih =>
    intro acc hall
    rw [List.foldl_cons]
    have hb : b = [] := hall b (List.mem_cons_self _ _)
    subst hb
    simp only [List.length_nil, Nat.le_refl, if_true]
    exact ih acc (fun x hx => hall x (List.mem_cons_of_mem _ hx))

lemma collectAllWords_replicate (n : Nat) :
    collectAllWords (List.replicate n ([] : List WordCountType)) = [] :=
  collect_foldl_all_nil _ _ (fun _ hb => List.eq_of_mem_replicate hb)

lemma collectAllWords_replicate_set {n : Nat} (hn : 0 < n) (bin : List WordCountType) :
    collectAllWords ((List.replicate n ([] : List WordCountType)).set 0 bin)
      = if bin.length ≤ 0 then [] else bin := by
  obtain ⟨m, rfl⟩ := Nat.exists_eq_succ_of_ne_zero (Nat.pos_iff_ne_zero.mp hn)
  rw [List.replicate_succ, List.set_cons_zero]
  unfold collectAllWords
  rw [List.foldl_cons]
  by_cases hlen : bin.length ≤ 0
  · rw [if_pos hlen, if_pos hlen]
    exact collect_foldl_all_nil _ _ (fun _ hb => List.eq_of_mem_replicate hb)
  · rw [if_neg hlen, if_neg hlen, List.nil_append]
    exact collect_foldl_all_nil _ _ (fun _ hb => List.eq_of_mem_replicate hb)

lemma binCountOf_nil (w : Word) : binCountOf w [] = 0 := rfl

lemma binCountOf_cons (w : Word) (p : WordCountType) (rest : List WordCountType) :
    binCountOf w (p :: rest) = (if p.1 = w then p.2 else 0) + binCountOf w rest := by
  by_cases hp : p.1 = w
  · simp [binCountOf, List.filter_cons, hp]
  · simp [binCountOf, List.filter_cons, hp]

lemma binCountOf_addToBin_self (w : Word) :
    ∀ bin, binCountOf w (addToBin w bin) = binCountOf w bin + 1 := by
  intro bin
  induction bin with
  | nil =>
    rw [addToBin, binCountOf_cons, binCountOf_nil]
    simp
  | cons p rest ih =>
    rw [addToBin]
    by_cases hp : p.1 = w
    · rw [if_pos hp, binCountOf_cons, binCountOf_cons]
      simp only [hp, if_true, ite_true]
      omega
    · rw [if_neg hp, binCountOf_cons, binCountOf_cons, if_neg hp, ih]
      omega

lemma countOf_set_bins (w : Word) :
    ∀ (bins : List (List WordCountType)) (i : Nat), i < bins.length →
    ((bins.set i (addToBin w (bins.getD i []))).map (binCountOf w)).sum
      = ((bins.map (binCountOf w)).sum) + 1 := by
  intro bins
  induction bins with
  | nil =>
    intro i hi
    simp at hi
  | cons bhd rest ih =>
    intro i hi
    cases i with
    | zero =>
      rw [List.getD_cons_zero, List.set_cons_zero, List.map_cons, List.sum_cons,
        List.map_cons, List.sum_cons, binCountOf_addToBin_self]
      omega
    | succ j =>
      rw [List.getD_cons_succ, List.set_cons_succ, List.map_cons, List.sum_cons,
        List.map_cons, List.sum_cons, ih j (by simpa using hi)]
      omega

lemma countOf_addWord_self (h : Word → Nat) (a : WordAccumulator) (w : Word)
    (hlen : 0 < a.bins.length) :
    (a.addWord h w).countOf w = a.countOf w + 1 := by
  unfold WordAccumulator.addWord WordAccumulator.countOf
  exact countOf_set_bins w a.bins _ (Nat.mod_lt _ hlen)

lemma countOf_empty (w : Word) : WordAccumulator.empty.countOf w = 0 := by
  unfold WordAccumulator.empty WordAccumulator.countOf
  rw [List.map_replicate, binCountOf_nil, List.sum_replicate]
  simp

lemma addWord_bins_length (h : Word → Nat) (a : WordAccumulator) (w : Word) :
    (a.addWord h w).bins.length = a.bins.length := by
  unfold WordAccumulator.addWord
  exact List.length_set _ _ _

lemma empty_bins_length : WordAccumulator.empty.bins.length = BIN_COUNT := by
  unfold WordAccumulator.empty
  exact List.length_replicate _ _

/-! ### Consuming a whole run, and emitting on a separator -/

lemma scanAux_consume_run : ∀ (w braw bs : List Nat),
    (∀ b ∈ w, isAlnumByte b = true) →
    (∀ b ∈ braw, isAlnumByte b = true) →
    braw.length + w.length ≤ 2047 →
    scanAux (w ++ bs) (braw.map foldByte) = scanAux bs ((braw ++ w).map foldByte) := by
  intro w
  induction w with
  | nil =>
    intro braw bs _ _ _
    simp
  | cons b w ih =>
    intro braw bs hw hb hlen
    have hba : isAlnumByte b = true := hw b (List.mem_cons_self _ _)
    have hg : (braw.map foldByte).length + 1 < buffSize := by
      simp only [List.length_map, buffSize]
      simp only [List.length_cons] at hlen
      omega
    have hb' : ∀ x ∈ braw ++ [b], isAlnumByte x = true := by
      intro x hx
      rcases List.mem_append.mp hx with h1 | h2
      · exact hb x h1
      · rw [List.mem_singleton.mp h2]
        exact hba
    have hlen' : (braw ++ [b]).length + w.length ≤ 2047 := by
      simp only [List.length_append, List.length_singleton]
      simp only [List.length_cons] at hlen
      omega
    have hw' : ∀ x ∈ w, isAlnumByte x = true :=
      fun x hx => hw x (List.mem_cons_of_mem _ hx)
    rw [List.cons_append, scanAux]
    by_cases hk : isKeepByte b = true
    · rw [if_pos hk, if_pos hg]
      have hbuf : braw.map foldByte ++ [b] = (braw ++ [b]).map foldByte := by
        rw [List.map_append]
        simp [foldByte_of_keep hk]
      rw [hbuf, ih (braw ++ [b]) bs hw' hb' hlen', List.append_assoc,
        List.singleton_append]
    · have hu : isUpperByte b = true := by
        rcases Bool.or_eq_true _ _ |>.mp (by simpa [isAlnumByte] using hba) with h1 | h2
        · exact absurd h1 hk
        · exact h2
      rw [if_neg hk, if_pos hu, if_pos hg]
      have hbuf : braw.map foldByte ++ [b + 32] = (braw ++ [b]).map foldByte := by
        rw [List.map_append]
        simp [foldByte_of_upper hu]
      rw [hbuf, ih (braw ++ [b]) bs hw' hb' hlen', List.append_assoc,
        List.singleton_append]

lemma scanAux_emit_space (buf bs : List Nat) (hne : buf ≠ []) :
    scanAux (32 :: bs) buf = (scanAux bs []).map (fun ws => buf :: ws) := by
  rw [scanAux]
  rw [if_neg (by decide : ¬ isKeepByte 32 = true),
    if_neg (by decide : ¬ isUpperByte 32 = true),
    if_pos (List.length_pos.mpr hne)]

/-! ### Sequentialized file runs -/

lemma processFile_openFail (h : Word → Nat) (fn : String) (inp : FileInput)
    (a : WordAccumulator) (hopen : inp.openOk = false) :
    processFile h fn inp a = some (a, [⟨fn, inp.openErrno⟩]) := by
  unfold processFile
  rw [hopen]
  rfl

lemma processFile_readFail (h : Word → Nat) (fn : String) (inp : FileInput)
    (a : WordAccumulator) (ws : List (List Nat)) (hopen : inp.openOk = true)
    (hread : inp.readError = true) (hscan : scanWords inp.bytes = some ws) :
    processFile h fn inp a
      = some (ws.foldl (fun acc w => acc.addWord h w) a, [⟨fn, inp.readErrno⟩]) := by
  unfold processFile
  rw [hopen, hscan, hread]
  rfl

lemma runFiles_append (h : Word → Nat) :
    ∀ (xs ys : List (String × FileInput)) (a : WordAccumulator),
    runFiles h (xs ++ ys) a =
      (runFiles h xs a).bind (fun p =>
        (runFiles h ys p.1).map (fun q => (q.1, p.2 ++ q.2))) := by
  intro xs
  induction xs with
  | nil =>
    intro ys a
    rw [List.nil_append, runFiles]
    cases hr : runFiles h ys a with
    | none => simp [hr]
    | some q => simp [hr]
  | cons x rest ih =>
    intro ys a
    obtain ⟨fn, inp⟩ := x
    rw [List.cons_append, runFiles, runFiles]
    cases hp : processFile h fn inp a with
    | none => simp
    | some p =>
      obtain ⟨a', ds⟩ := p
      simp only
      rw [ih ys a']
      cases hr : runFiles h rest a' with
      | none => simp [hr]
      | some q =>
        cases hr2 : runFiles h ys q.1 with
        | none => simp [hr, hr2]
        | some r => simp [hr, hr2, List.append_assoc]

lemma runFiles_cons_openFail (h : Word → Nat) (fn : String) (inp : FileInput)
    (post : List (String × FileInput)) (a : WordAccumulator)
    (hopen : inp.openOk = false) :
    runFiles h ((fn, inp) :: post) a
      = (runFiles h post a).map (fun q => (q.1, ⟨fn, inp.openErrno⟩ :: q.2)) := by
  rw [runFiles, processFile_openFail h fn inp a hopen]
  cases hr : runFiles h post a with
  | none => simp [hr]
  | some q => simp [hr]

/-! ### The suffix filter of the directory walk -/

lemma endsTxt_iff (name : List Char) : endsTxt name = true ↔ hasTxtSuffix name := by
  unfold endsTxt hasTxtSuffix
  constructor
  · intro hok
    simp only [Bool.and_eq_true, decide_eq_true_eq] at hok
    obtain ⟨hlen, hdrop⟩ := hok
    refine ⟨name.take (name.length - 4), ?_⟩
    conv_lhs => rw [← List.take_append_drop (name.length - 4) name]
    rw [hdrop]
  · rintro ⟨stem, rfl⟩
    simp only [Bool.and_eq_true, decide_eq_true_eq]
    have htxt : (".txt".toList).length = 4 := rfl
    constructor
    · simp only [List.length_append, htxt, decide_eq_true_eq]
      omega
    · have hidx : (stem ++ ".txt".toList).length - 4 = stem.length := by
        simp only [List.length_append, htxt]
        omega
      rw [hidx, List.drop_left]

/-! ### Sorting and ListTopWords -/

lemma pairwise_sortByOccurrence (l : List WordCountType) :
    List.Pairwise (fun p q : WordCountType => q.2 ≤ p.2) (sortByOccurrence l) := by
  have htrans : ∀ a b c : WordCountType,
      (fun p q : WordCountType => decide (q.2 ≤ p.2)) a b = true →
      (fun p q : WordCountType => decide (q.2 ≤ p.2)) b c = true →
      (fun p q : WordCountType => decide (q.2 ≤ p.2)) a c = true := by
    intro a b c hab hbc
    simp only [decide_eq_true_eq] at hab hbc ⊢
    omega
  have htotal : ∀ a b : WordCountType,
      ((fun p q : WordCountType => decide (q.2 ≤ p.2)) a b
        || (fun p q : WordCountType => decide (q.2 ≤ p.2)) b a) = true := by
    intro a b
    simp only [Bool.or_eq_true, decide_eq_true_eq]
    omega
  have hp := List.sorted_mergeSort htrans htotal l
  exact hp.imp (fun hab => of_decide_eq_true hab)

lemma listTopWords_def (a : WordAccumulator) (count : Int) :
    a.listTopWords count =
      if (collectAllWords a.bins).length ≤ 0 then some (collectAllWords a.bins)
      else if 0 ≤ count ∧ count ≤ ((collectAllWords a.bins).length : Int) then
        some ((sortByOccurrence (collectAllWords a.bins)).take count.toNat)
      else none := rfl

/-! ### Evaluating concrete accumulator states -/

lemma bin_count_pos : 0 < BIN_COUNT := by norm_num [BIN_COUNT]

lemma addWord_eval (a : WordAccumulator) (h : Word → Nat) (w : Word) :
    a.addWord h w = ⟨a.bins.set (h w % a.bins.length)
      (addToBin w (a.bins.getD (h w % a.bins.length) []))⟩ := rfl

lemma addWord_empty_hZero (w : Word) :
    WordAccumulator.empty.addWord hZero w
      = ⟨(List.replicate BIN_COUNT ([] : List WordCountType)).set 0 [(w, 1)]⟩ := by
  rw [addWord_eval]
  have hidx : hZero w % WordAccumulator.empty.bins.length = 0 := by simp [hZero]
  rw [hidx]
  have hget : WordAccumulator.empty.bins.getD 0 [] = [] := by
    unfold WordAccumulator.empty
    rw [List.getD_eq_getElem?_getD, List.getElem?_replicate, if_pos bin_count_pos]
    rfl
  rw [hget]
  unfold WordAccumulator.empty
  rfl

lemma addWord_set_hZero (bin : List WordCountType) (w : Word) :
    (WordAccumulator.mk
        ((List.replicate BIN_COUNT ([] : List WordCountType)).set 0 bin)).addWord hZero w
      = ⟨(List.replicate BIN_COUNT ([] : List WordCountType)).set 0 (addToBin w bin)⟩ := by
  rw [addWord_eval]
  have hidx : hZero w % ((List.replicate BIN_COUNT
      ([] : List WordCountType)).set 0 bin).length = 0 := by simp [hZero]
  rw [hidx]
  have hget : ((List.replicate BIN_COUNT ([] : List WordCountType)).set 0 bin).getD 0 []
      = bin := by
    rw [List.getD_eq_getElem?_getD,
      List.getElem?_set_self (by rw [List.length_replicate]; exact bin_count_pos)]
    rfl
  rw [hget, List.set_set]

lemma countOf_set_state (bin : List WordCountType) (w : Word) :
    (WordAccumulator.mk
        ((List.replicate BIN_COUNT ([] : List WordCountType)).set 0 bin)).countOf w
      = binCountOf w bin := by
  unfold WordAccumulator.countOf
  rw [List.map_set, List.map_replicate, binCountOf_nil, List.sum_set]
  have h1 : (List.take 0 (List.replicate BIN_COUNT (0 : Nat))).sum = 0 := by simp
  have h2 : (List.drop 1 (List.replicate BIN_COUNT (0 : Nat))).sum = 0 := by
    apply List.sum_eq_zero
    intro x hx
    exact List.eq_of_mem_replicate (List.mem_of_mem_drop hx)
  rw [h1, h2, List.length_replicate, if_pos bin_count_pos]
  omega

lemma uniqueCount_foldl_all_nil :
    ∀ (bins : List (List WordCountType)) (t : Nat), (∀ b ∈ bins, b = []) →
    bins.foldl (fun t bin => t + bin.length) t = t := by
  intro bins
  induction bins with
  | nil =>
    intro t _
    rfl
  | cons b rest ih =>
    intro t hall
    rw [List.foldl_cons]
    have hb : b = [] := hall b (List.mem_cons_self _ _)
    subst hb
    simp only [List.length_nil, Nat.add_zero]
    exact ih t (fun x hx => hall x (List.mem_cons_of_mem _ hx))

lemma getUniqueWordCount_set_state (bin : List WordCountType) :
    (WordAccumulator.mk
        ((List.replicate BIN_COUNT ([] : List WordCountType)).set 0 bin)).getUniqueWordCount
      = bin.length := by
  unfold WordAccumulator.getUniqueWordCount
  obtain ⟨m, hm⟩ := Nat.exists_eq_succ_of_ne_zero (Nat.pos_iff_ne_zero.mp bin_count_pos)
  rw [hm, List.replicate_succ, List.set_cons_zero, List.foldl_cons]
  rw [uniqueCount_foldl_all_nil _ _ (fun _ hb => List.eq_of_mem_replicate hb)]
  omega

/-! ### Sharding invariant -/

lemma mem_addToBin {w v : Word} {c : Nat} :
    ∀ {bin : List WordCountType}, (v, c) ∈ addToBin w bin →
    v = w ∨ ∃ c', (v, c') ∈ bin := by
  intro bin
  induction bin with
  | nil =>
    intro hm
    rw [addToBin] at hm
    left
    have := List.mem_singleton.mp hm
    exact congrArg Prod.fst this
  | cons p rest ih =>
    intro hm
    rw [addToBin] at hm
    by_cases hp : p.1 = w
    · rw [if_pos hp] at hm
      rcases List.mem_cons.mp hm with h1 | h2
      · left
        have hv : v = p.1 := congrArg Prod.fst h1
        rw [hv, hp]
      · right
        exact ⟨c, List.mem_cons_of_mem _ h2⟩
    · rw [if_neg hp] at hm
      rcases List.mem_cons.mp hm with h1 | h2
      · right
        exact ⟨c, h1 ▸ List.mem_cons_self _ _⟩
      · rcases ih h2 with h3 | ⟨c', hc'⟩
        · left
          exact h3
        · right
          exact ⟨c', List.mem_cons_of_mem _ hc'⟩

lemma exists_mem_addToBin (w : Word) :
    ∀ bin : List WordCountType, ∃ c, (w, c) ∈ addToBin w bin := by
  intro bin
  induction bin with
  | nil =>
    exact ⟨1, List.mem_singleton_self _⟩
  | cons p rest ih =>
    rw [addToBin]
    by_cases hp : p.1 = w
    · rw [if_pos hp]
      exact ⟨p.2 + 1, by rw [hp]; exact List.mem_cons_self _ _⟩
    · rw [if_neg hp]
      obtain ⟨c, hc⟩ := ih
      exact ⟨c, List.mem_cons_of_mem _ hc⟩

lemma addWord_other_bins (h : Word → Nat) (a : WordAccumulator) (w : Word) (j : Nat)
    (hj : j ≠ h w % a.bins.length) :
    (a.addWord h w).bins.getD j [] = a.bins.getD j [] := by
  unfold WordAccumulator.addWord
  rw [List.getD_eq_getElem?_getD, List.getD_eq_getElem?_getD,
    List.getElem?_set_ne (Ne.symm hj)]

lemma addWord_own_bin (h : Word → Nat) (a : WordAccumulator) (w : Word)
    (hlen : 0 < a.bins.length) :
    (a.addWord h w).bins.getD (h w % a.bins.length) []
      = addToBin w (a.bins.getD (h w % a.bins.length) []) := by
  unfold WordAccumulator.addWord
  rw [List.getD_eq_getElem?_getD,
    List.getElem?_set_self (Nat.mod_lt _ hlen)]
  rfl

lemma reachable_invariant (h : Word → Nat) (a : WordAccumulator)
    (hr : Reachable h a) :
    a.bins.length = BIN_COUNT ∧
    ∀ i, ∀ hi : i < a.bins.length, ∀ (v : Word) (c : Nat),
      (v, c) ∈ a.bins[i] → h v % BIN_COUNT = i := by
  induction hr with
  | base =>
    refine ⟨empty_bins_length, ?_⟩
    intro i hi v c hm
    unfold WordAccumulator.empty at hm
    rw [List.getElem_replicate] at hm
    cases hm
  | add a w _ ih =>
    obtain ⟨hlen, hinv⟩ := ih
    have hpos : 0 < a.bins.length := by
      rw [hlen]
      norm_num [BIN_COUNT]
    refine ⟨by rw [addWord_bins_length, hlen], ?_⟩
    intro i hi v c hm
    have hi' : i < a.bins.length := by
      rwa [addWord_bins_length] at hi
    unfold WordAccumulator.addWord at hm
    by_cases hie : i = h w % a.bins.length
    · subst hie
      rw [List.getElem_set_self] at hm
      rcases mem_addToBin hm with h1 | ⟨c', hc'⟩
      · rw [h1, hlen]
      · have hgd : a.bins.getD (h w % a.bins.length) []
            = a.bins[h w % a.bins.length] :=
          List.getD_eq_getElem _ _ (Nat.mod_lt _ hpos)
        rw [hgd] at hc'
        exact hinv _ (Nat.mod_lt _ hpos) v c' hc'
    · rw [List.getElem_set_ne (fun he => hie he.symm)] at hm
      exact hinv i hi' v c hm
  | clear a _ ih =>
    obtain ⟨hlen, hinv⟩ := ih
    refine ⟨?_, ?_⟩
    · unfold WordAccumulator.clearResults
      rw [List.length_map]
      exact hlen
    · intro i hi v c hm
      unfold WordAccumulator.clearResults at hm
      rw [List.getElem_map] at hm
      cases hm


/-! ## The claims -/

/-- C1: the claim says `ListTopWords(count)` with `count` larger than the
number of unique words returns all recorded pairs.  The code only handles the
empty accumulator that way; on a non-empty accumulator it slices
`allWords.begin() + count` past the end of the collected vector, which is
out-of-bounds undefined behaviour (modelled as `none`): with one recorded
word (unique count 1) a request for 2 does not return the single pair. -/
theorem C1_listTopWords_count_exceeding_is_oob :
    (WordAccumulator.empty.addWord hZero (strB "a")).getUniqueWordCount = 1 ∧
    (WordAccumulator.empty.addWord hZero (strB "a")).listTopWords 2 = none ∧
    WordAccumulator.empty.listTopWords 10 = some [] := by
  refine ⟨?_, ?_, ?_⟩
  · rw [addWord_empty_hZero, getUniqueWordCount_set_state]
    rfl
  · rw [addWord_empty_hZero, listTopWords_def,
      collectAllWords_replicate_set bin_count_pos]
    norm_num
  · rw [listTopWords_def]
    unfold WordAccumulator.empty
    rw [collectAllWords_replicate]
    simp

/-- C2 counterexample: the claim says the accumulator itself counts words
that differ only in case as the same word, so that `AddWord("Hello")` then
`AddWord("hello")` yields count 2 for "hello".  `AddWord` does no case
folding: after those two calls the count recorded for "hello" is 1 (a
separate entry holds "Hello"). -/
theorem C2_addWord_case_sensitive_counterexample :
    ((WordAccumulator.empty.addWord hZero (strB "Hello")).addWord hZero
        (strB "hello")).countOf (strB "hello") = 1 := by
  rw [addWord_empty_hZero, addWord_set_hZero, countOf_set_state]
  decide

/-- C2 amended: case folding happens in the scanner, not in `AddWord`.  For
any two valid words that differ only in letter case, the scanner lowercases
both before calling `AddWord`, so scanning them in one file yields count 2
for the lowercased word. -/
theorem C2_case_insensitive_via_scanner (h : Word → Nat) (w1 w2 : List Nat)
    (hne : w1 ≠ []) (hw1 : ∀ b ∈ w1, isAlnumByte b = true)
    (hw2 : ∀ b ∈ w2, isAlnumByte b = true)
    (hfold : w1.map foldByte = w2.map foldByte)
    (hlen1 : w1.length ≤ 2047) (hlen2 : w2.length ≤ 2047) :
    scanWords (w1 ++ 32 :: (w2 ++ [32])) = some [w1.map foldByte, w2.map foldByte] ∧
    ([w1.map foldByte, w2.map foldByte].foldl
        (fun acc w => acc.addWord h w) WordAccumulator.empty).countOf
      (w1.map foldByte) = 2 := by
  have hb1 : w1.map foldByte ≠ [] := by
    intro he
    exact hne (List.map_eq_nil_iff.mp he)
  have hb2 : w2.map foldByte ≠ [] := by
    intro he
    apply hne
    apply List.map_eq_nil_iff.mp
    rw [hfold, he]
  constructor
  · unfold scanWords
    have e1 := scanAux_consume_run w1 [] (32 :: (w2 ++ [32])) hw1 (by simp)
      (by simpa using hlen1)
    rw [List.nil_append] at e1
    have e2 := scanAux_emit_space (w1.map foldByte) (w2 ++ [32]) hb1
    have e3 := scanAux_consume_run w2 [] [32] hw2 (by simp) (by simpa using hlen2)
    rw [List.nil_append] at e3
    have e4 := scanAux_emit_space (w2.map foldByte) [] hb2
    simp only [List.map_nil] at e1 e3
    rw [e1, e2, e3, e4]
    rfl
  · rw [List.foldl_cons, List.foldl_cons, List.foldl_nil, ← hfold]
    have hpos1 : 0 < WordAccumulator.empty.bins.length := by
      rw [empty_bins_length]
      exact bin_count_pos
    have hpos2 : 0 < (WordAccumulator.empty.addWord h (w1.map foldByte)).bins.length := by
      rw [addWord_bins_length]
      exact hpos1
    rw [countOf_addWord_self _ _ _ hpos2, countOf_addWord_self _ _ _ hpos1,
      countOf_empty]

/-- C2 amended, witnessed at the claim's own example: scanning "Hello hello "
yields count 2 for "hello". -/
theorem C2_case_insensitive_witness :
    scanWords (strB "Hello" ++ 32 :: (strB "hello" ++ [32]))
      = some [(strB "Hello").map foldByte, (strB "hello").map foldByte] ∧
    ([(strB "Hello").map foldByte, (strB "hello").map foldByte].foldl
        (fun acc w => acc.addWord hZero w) WordAccumulator.empty).countOf
      ((strB "Hello").map foldByte) = 2 :=
  C2_case_insensitive_via_scanner hZero (strB "Hello") (strB "hello")
    (by decide) (by decide) (by decide) (by decide) (by decide) (by decide)

/-- C3: when the file ends while a token is in progress, the trailing token
is never emitted — appending any alphanumeric tail to a file's content leaves
the emitted word sequence unchanged. -/
theorem C3_trailing_token_not_emitted (cs rs : List Nat) (ws : List (List Nat))
    (hrs : ∀ b ∈ rs, isAlnumByte b = true)
    (hscan : scanWords (cs ++ rs) = some ws) :
    scanWords cs = some ws := by
  have hsome : (scanAux cs []).isSome = true := by
    apply scanAux_append_isSome cs rs []
    rw [show scanAux (cs ++ rs) [] = some ws from hscan]
    rfl
  obtain ⟨ws', hws'⟩ := Option.isSome_iff_exists.mp hsome
  have e1 : ws = specTokens (cs ++ rs) :=
    scanAux_spec (cs ++ rs) [] ws (by simp) (by simpa using hscan)
  have e2 : ws' = specTokens cs := scanAux_spec cs [] ws' (by simp) (by simpa using hws')
  rw [scanWords, hws', e2, e1, specTokens_append_run hrs]

/-- C3 witness: "hi world" emits only "hi"; the non-terminated "world" is
dropped, exactly as scanning "hi " alone. -/
theorem C3_trailing_token_witness : scanWords (strB "hi ") = some [strB "hi"] :=
  C3_trailing_token_not_emitted (strB "hi ") (strB "world") [strB "hi"]
    (by decide) (by decide)

/-- C4: whenever the scanner completes without the overflow assertion, the
emitted words are exactly the separator-terminated maximal runs of ASCII
alphanumeric characters, folded to lowercase. -/
theorem C4_scanner_emits_maximal_runs (content : List Nat) (ws : List (List Nat))
    (h : scanWords content = some ws) : ws = specTokens content := by
  have hres := scanAux_spec content [] ws (by simp) (by simpa using h)
  simpa using hres

/-- C4 witness at a concrete file: "Ab9, x. " tokenizes to "ab9" and "x". -/
theorem C4_scanner_witness : [strB "ab9", strB "x"] = specTokens (strB "Ab9, x. ") :=
  C4_scanner_emits_maximal_runs (strB "Ab9, x. ") [strB "ab9", strB "x"] (by decide)

/-- C5: the overflow assertion fires exactly when some maximal alphanumeric
run of the input (the trailing one included, since it is buffered even though
never emitted) exceeds 2047 characters; files whose runs are all at most 2047
characters long scan to completion. -/
theorem C5_overflow_assert_iff_long_token (content : List Nat) :
    scanWords content = none ↔ ∃ r ∈ runsOf content, 2047 < r.length := by
  constructor
  · intro hnone
    by_contra hno
    push_neg at hno
    have hs := scanAux_isSome_of_short_runs content [] (by simp) ?_
    · simp only [List.map_nil] at hs
      rw [scanWords] at hnone
      rw [hnone] at hs
      simp at hs
    · intro r hr
      have hlt := hno r (by simpa using hr)
      omega
  · rintro ⟨r, hr, hl⟩
    have hres := scanAux_none_of_long_run content [] (by simp) (by simp)
      ⟨r, by simpa using hr, hl⟩
    simpa [scanWords] using hres

/-- C6: a file that cannot be opened, or whose read fails before end-of-file,
is reported with a diagnostic carrying the file name and the system error,
adds no further words, and does not abort the run — the other files' words
still reach the accumulator and the final state equals that of a run without
the failing file. -/
theorem C6_file_failures_contained (h : Word → Nat) (fn : String)
    (inp : FileInput) (a : WordAccumulator) :
    (inp.openOk = false →
      processFile h fn inp a = some (a, [⟨fn, inp.openErrno⟩])) ∧
    (inp.openOk = true → inp.readError = true →
      ∀ ws, scanWords inp.bytes = some ws →
      processFile h fn inp a
        = some (ws.foldl (fun acc w => acc.addWord h w) a, [⟨fn, inp.readErrno⟩])) ∧
    (inp.openOk = false → ∀ pre post,
      runFiles h (pre ++ (fn, inp) :: post) a =
        (runFiles h pre a).bind (fun p =>
          (runFiles h post p.1).map (fun q =>
            (q.1, p.2 ++ ⟨fn, inp.openErrno⟩ :: q.2)))) := by
  refine ⟨?_, ?_, ?_⟩
  · intro hopen
    exact processFile_openFail h fn inp a hopen
  · intro hopen hread ws hscan
    exact processFile_readFail h fn inp a ws hopen hread hscan
  · intro hopen pre post
    rw [runFiles_append]
    cases hpre : runFiles h pre a with
    | none => rfl
    | some p =>
      simp only [Option.some_bind]
      rw [runFiles_cons_openFail h fn inp post p.1 hopen]
      cases hpost : runFiles h post p.1 with
      | none => rfl
      | some q => simp

/-- C6 witness: a file deleted between enumeration and open (open fails with
errno 2) is reported and contributes nothing. -/
theorem C6_file_failures_witness :
    processFile hZero "gone.txt" ⟨false, 2, [], false, 0⟩ WordAccumulator.empty
      = some (WordAccumulator.empty, [⟨"gone.txt", 2⟩]) :=
  (C6_file_failures_contained hZero "gone.txt" ⟨false, 2, [], false, 0⟩
    WordAccumulator.empty).1 rfl

/-- C7: a directory entry produces a dispatched task exactly when it is a
regular file (symlinks, special files, entries with failed `lstat`, and the
`.` and `..` entries never do) whose name ends in the literal case-sensitive
suffix ".txt"; a directory is not dispatched but walked inline on the same
traversal path. -/
theorem C7_walk_filter (basePath name : List Char) (sub rest : List EntryNode)
    (e : EntryNode) :
    searchForFiles basePath (e :: rest)
        = searchEntry basePath e ++ searchForFiles basePath rest ∧
    searchEntry basePath (.symlink name) = [] ∧
    searchEntry basePath (.otherType name) = [] ∧
    searchEntry basePath (.statFail name) = [] ∧
    ((name = dotName ∨ name = dotDotName) →
      searchEntry basePath (.regularFile name) = [] ∧
      searchEntry basePath (.directory name sub) = []) ∧
    (name ≠ dotName → name ≠ dotDotName →
      (searchEntry basePath (.regularFile name) = [basePath ++ '/' :: name]
          ↔ hasTxtSuffix name) ∧
      (¬ hasTxtSuffix name → searchEntry basePath (.regularFile name) = []) ∧
      searchEntry basePath (.directory name sub)
        = searchForFiles (basePath ++ '/' :: name) sub) := by
  refine ⟨?_, ?_, ?_, ?_, ?_, ?_⟩
  · rw [searchForFiles]
  · rw [searchEntry]
  · rw [searchEntry]
  · rw [searchEntry]
  · intro hdot
    constructor
    · rw [searchEntry, if_pos hdot]
    · rw [searchEntry, if_pos hdot]
  · intro h1 h2
    have hnd : ¬ (name = dotName ∨ name = dotDotName) := by
      rintro (hd | hd)
      · exact h1 hd
      · exact h2 hd
    refine ⟨?_, ?_, ?_⟩
    · constructor
      · intro heq
        rw [searchEntry, if_neg hnd] at heq
        by_cases he : endsTxt name = true
        · exact (endsTxt_iff name).mp he
        · rw [if_neg he] at heq
          simp at heq
      · intro htxt
        rw [searchEntry, if_neg hnd,
          if_pos (show endsTxt name = true from (endsTxt_iff name).mpr htxt)]
    · intro htxt
      have hf : endsTxt name ≠ true := fun he => htxt ((endsTxt_iff name).mp he)
      rw [searchEntry, if_neg hnd, if_neg hf]
    · rw [searchEntry, if_neg hnd]

/-- C7 witness: a regular file named "a.txt" at the walk root is submitted as
the task "/a.txt". -/
theorem C7_walk_filter_witness :
    searchEntry [] (EntryNode.regularFile ("a.txt".toList))
      = [[] ++ '/' :: "a.txt".toList] :=
  ((C7_walk_filter [] ("a.txt".toList) [] [] (EntryNode.statFail [])).2.2.2.2.2
    (by decide) (by decide)).1.mpr ⟨"a".toList, by decide⟩

/-- C8: in every accumulator state reachable by `AddWord` and `ClearResults`
calls, the bin vector has exactly `BIN_COUNT` shards, every recorded
(word, count) entry lives in the shard `hash(word) % BIN_COUNT` and only
there, an `AddWord` call leaves every other shard unchanged, and after
`AddWord(w)` the word is found in its assigned shard. -/
theorem C8_sharding_invariant (h : Word → Nat) (a : WordAccumulator)
    (hr : Reachable h a) :
    a.bins.length = BIN_COUNT ∧
    (∀ i, ∀ hi : i < a.bins.length, ∀ (v : Word) (c : Nat),
      (v, c) ∈ a.bins[i] → h v % BIN_COUNT = i) ∧
    (∀ (w : Word) (j : Nat), j ≠ h w % BIN_COUNT →
      (a.addWord h w).bins.getD j [] = a.bins.getD j []) ∧
    (∀ w : Word, ∃ c, (w, c) ∈ (a.addWord h w).bins.getD (h w % BIN_COUNT) []) := by
  obtain ⟨hlen, hinv⟩ := reachable_invariant h a hr
  have hpos : 0 < a.bins.length := by
    rw [hlen]
    exact bin_count_pos
  refine ⟨hlen, hinv, ?_, ?_⟩
  · intro w j hj
    exact addWord_other_bins h a w j (by rwa [hlen])
  · intro w
    have hown := addWord_own_bin h a w hpos
    rw [hlen] at hown
    rw [hown]
    exact exists_mem_addToBin w _

/-- C8 witness: the invariant holds of the concrete reachable state obtained
by one `AddWord` on a fresh accumulator. -/
theorem C8_sharding_invariant_witness :
    (WordAccumulator.empty.addWord hZero (strB "hi")).bins.length = BIN_COUNT :=
  (C8_sharding_invariant hZero _ (Reachable.add _ _ Reachable.base)).1

/-- C9: every word list `ListTopWords` actually returns is sorted by
non-increasing occurrence count. -/
theorem C9_topWords_counts_nonincreasing (a : WordAccumulator) (count : Int)
    (ws : List WordCountType) (h : a.listTopWords count = some ws) :
    List.Pairwise (fun p q : WordCountType => q.2 ≤ p.2) ws := by
  rw [listTopWords_def] at h
  by_cases h1 : (collectAllWords a.bins).length ≤ 0
  · rw [if_pos h1] at h
    have h2 : collectAllWords a.bins = [] :=
      List.length_eq_zero.mp (Nat.le_zero.mp h1)
    rw [h2] at h
    rw [← Option.some.inj h]
    exact List.Pairwise.nil
  · rw [if_neg h1] at h
    by_cases h2 : 0 ≤ count ∧ count ≤ ((collectAllWords a.bins).length : Int)
    · rw [if_pos h2] at h
      rw [← Option.some.inj h]
      exact List.Pairwise.sublist (List.take_sublist _ _) (pairwise_sortByOccurrence _)
    · rw [if_neg h2] at h
      cases h

/-- C9 witness: the list returned on a fully drained accumulator is (vacuously)
sorted by non-increasing count. -/
theorem C9_topWords_counts_witness :
    List.Pairwise (fun p q : WordCountType => q.2 ≤ p.2) ([] : List WordCountType) :=
  C9_topWords_counts_nonincreasing ⟨[[]]⟩ 10 [] rfl

/-- C10: every word the scanner passes to `AddWord` is non-empty and consists
only of lowercase letters and digits — never an uppercase letter, never a
separator character, never the empty token. -/
theorem C10_emitted_words_valid (content : List Nat) (ws : List (List Nat))
    (h : scanWords content = some ws) :
    ∀ w ∈ ws, w ≠ [] ∧ ∀ b ∈ w, isKeepByte b = true :=
  scanAux_words_valid content [] ws (by simp) (by simpa using h)

/-- C10 witness: scanning "Hi U2! " emits the word "hi", and its first byte
104 (the letter h) is indeed in the valid class [0-9a-z]. -/
theorem C10_emitted_words_witness : isKeepByte 104 = true :=
  (C10_emitted_words_valid (strB "Hi U2! ") [strB "hi", strB "u2"] (by decide)
    (strB "hi") (by decide)).2 104 (by decide)
